import Mathlib

set_option maxRecDepth 8000

/-!
Shallow embedding of the decoding/search subsystem of `joeynmt/search.py`
(the functions `greedy` and `beam_search`).

Modelling conventions, fixed once for the whole development:

* Machine floats are modelled as `ℚ`.  The deterministic scoring model
  (decoder + embeddings + encoder context) is modelled as a pure function
  `M : ℕ → List ℕ → ℕ → ℚ` sending the original batch position of an
  instance, the token history of a slot (including the leading BOS token)
  and a vocabulary id to the next-token log-probability produced by
  `F.log_softmax(out)`.  For a deterministic model the recurrent/attention
  state of a slot is a function of its token history, and the code's
  `index_select` gathers thread exactly that history, so passing the
  history explicitly is a faithful rendering of the state threading.
  `greedy` takes `argmax` of the raw logits `out`; since `log_softmax` is a
  strictly monotone per-row transformation of `out`, that argmax equals the
  argmax over the modelled log-probabilities, so both procedures consume
  the single function `M`.
* `torch.argmax` / `torch.topk` tie-breaking is by lowest (flattened)
  index, the deterministic comparison rule the code relies on.
* Vocabulary ids are `0, ..., V - 1` where `V` is `decoder.output_size`.
* The attention-score outputs are not modelled: no claim is about their
  values, and `beam_search` returns `None` for them.
-/

namespace JoeyNMT

/-- `torch.argmax` over the scores `f 0, ..., f (V-1)`:
first index attaining the maximum (ties to the lowest index). -/
def argmaxIdx (f : ℕ → ℚ) (V : ℕ) : ℕ :=
  (List.range V).foldl (fun best v => if f best < f v then v else best) 0

/-- Comparison used by `torch.topk` on the list `xs` of scores, acting on
indices: higher score first, ties by lower index. -/
def idxLe (xs : List ℚ) (i j : ℕ) : Bool :=
  decide (xs.getD j 0 < xs.getD i 0) ||
    (decide (xs.getD i 0 = xs.getD j 0) && decide (i ≤ j))

/-- `torch.topk(xs, k)` (sorted, deterministic tie-break): the indices of
the `k` largest entries of `xs`, highest first, ties by lowest index. -/
def topkIdx (xs : List ℚ) (k : ℕ) : List ℕ :=
  ((List.range xs.length).mergeSort (idxLe xs)).take k

/-! ## The greedy decoder (`greedy`, search.py lines 14-81) -/

/-- Loop state of `greedy`: per-instance token histories (each starting
with BOS, extended by one token per executed step, so that the stacked
output is `hists.map (List.drop 1)`), the per-instance EOS counters
(`end` in the source, a float that stays integer-valued), the cumulative
log-probabilities, and the number of executed steps. -/
structure GState where
  hists : List (List ℕ)
  ends : List ℕ
  logps : List ℚ
  steps : ℕ
deriving DecidableEq

/-- One iteration of the greedy decode loop (search.py lines 48-73):
argmax over the vocabulary per instance, append the prediction, bump the
EOS counter, and (for `return_logp`) accumulate the selected
log-probability gated by `end < 1` evaluated after the increment.
The source line
`log_prob.index_select(1, next_word.squeeze())[:, 0]` takes column `0`
of the gathered matrix, i.e. every instance accumulates the
log-probability (from its own row) of the token selected by instance 0;
this quirk is reproduced faithfully. -/
def greedyStep (M : ℕ → List ℕ → ℕ → ℚ) (eosIndex V : ℕ) (retLogp : Bool)
    (s : GState) : GState :=
  let B := s.hists.length
  let pred := fun b => argmaxIdx (M b (s.hists.getD b [])) V
  let ends := (List.range B).map fun b =>
    s.ends.getD b 0 + if pred b = eosIndex then 1 else 0
  { hists := (List.range B).map fun b => s.hists.getD b [] ++ [pred b]
    ends := ends
    logps :=
      if retLogp then
        (List.range B).map fun b =>
          s.logps.getD b 0 +
            if ends.getD b 0 < 1 then M b (s.hists.getD b []) (pred 0) else 0
      else s.logps
    steps := s.steps + 1 }

/-- The greedy decode loop (search.py lines 48-77), `fuel` iterations at
most, with the early-stop test `(end > 1).sum() >= batch_size` evaluated
after each step. -/
def greedyLoop (M : ℕ → List ℕ → ℕ → ℚ) (eosIndex V : ℕ) (retLogp : Bool)
    (batchSize : ℕ) : ℕ → GState → GState
  | 0, s => s
  | fuel + 1, s =>
    let s' := greedyStep M eosIndex V retLogp s
    if batchSize ≤ (s'.ends.filter fun e => decide (1 < e)).length then s'
    else greedyLoop M eosIndex V retLogp batchSize fuel s'

/-- Final loop state of `greedy`: all instances start with the single
token BOS, zero EOS count and zero log-probability. -/
def greedyFinal (M : ℕ → List ℕ → ℕ → ℚ) (bosIndex eosIndex V maxOutputLength batchSize : ℕ)
    (retLogp : Bool) : GState :=
  greedyLoop M eosIndex V retLogp batchSize maxOutputLength
    ⟨List.replicate batchSize [bosIndex], List.replicate batchSize 0,
     List.replicate batchSize 0, 0⟩

/-- `greedy` (search.py lines 14-81): returns the stacked output rows
(one row of predictions per instance, BOS excluded) and the vector of
cumulative log-probabilities (`np.zeros(batch_size)` left untouched when
`return_logp` is false). -/
def greedy (M : ℕ → List ℕ → ℕ → ℚ) (bosIndex eosIndex V maxOutputLength batchSize : ℕ)
    (retLogp : Bool) : List (List ℕ) × List ℚ :=
  let s := greedyFinal M bosIndex eosIndex V maxOutputLength batchSize retLogp
  (s.hists.map (List.drop 1), s.logps)

/-- A token row truncated at (and including) its first EOS occurrence;
the whole row when EOS never occurs. -/
def truncAtEos (eosIndex : ℕ) : List ℕ → List ℕ
  | [] => []
  | x :: xs => if x = eosIndex then [x] else x :: truncAtEos eosIndex xs

/-! ## The beam-search decoder (`beam_search`, search.py lines 85-285)

The flat tensors `alive_seq` (`batch*k x hyp_len`) and `topk_log_probs`
(`batch*k`) are block-structured: every operation of the loop body maps
the block of instance `i` (rows `i*k .. i*k+k-1`, via
`batch_index = topk_beam_index + beam_offset`) to itself, so the state is
represented per active instance (`BInst`), in the compacted order the
code maintains after `index_select(0, non_finished)`.  The per-original-
instance containers `hypotheses`, `results["predictions"]` and
`results["scores"]` are modelled as functions from the original batch
position (`batch_offset` entry). -/

/-- One active instance of the beam loop: its original batch position
(`batch_offset` entry), its `size` rows of `alive_seq`, and its `size`
entries of `topk_log_probs`. -/
structure BInst where
  orig : ℕ
  rows : List (List ℕ)
  scores : List ℚ
deriving DecidableEq

/-- The parameters of `beam_search`.  `alphaGt` is the test `alpha > -1`
and `penalty t` is the divisor `((5.0 + (t + 1)) / 6.0) ** alpha` (kept
abstract because rational exponentiation by a float is not a rational
operation; it is only ever used when `alphaGt` is true, and it is
positive for every real `alpha`).  `negInf` stands for the sentinel
`float("-inf")` seeding the non-first beams. -/
structure BeamParams where
  M : ℕ → List ℕ → ℕ → ℚ
  size : ℕ
  vocab : ℕ
  bosIndex : ℕ
  eosIndex : ℕ
  padIndex : ℕ
  maxOutputLength : ℕ
  alphaGt : Bool
  penalty : ℕ → ℚ
  nBest : ℕ
  negInf : ℚ

/-- The flattened `size * vocab` candidate matrix of one instance
(search.py lines 171-174, 183): entry `k*vocab + v` is the log-probability
of token `v` after the `k`-th row plus that row's running score. -/
def beamCand (P : BeamParams) (inst : BInst) : List ℚ :=
  (List.range (P.size * P.vocab)).map fun f =>
    P.M inst.orig (inst.rows.getD (f / P.vocab) []) (f % P.vocab) +
      inst.scores.getD (f / P.vocab) 0

/-- The comparison scores used for top-k selection (search.py lines
177-180): the candidates divided by the length penalty when
`alpha > -1`, the raw candidates otherwise. -/
def beamComp (P : BeamParams) (t : ℕ) (inst : BInst) : List ℚ :=
  if P.alphaGt then (beamCand P inst).map fun c => c / P.penalty t
  else beamCand P inst

/-- The `size` selected flattened indices (search.py line 186). -/
def beamSel (P : BeamParams) (t : ℕ) (inst : BInst) : List ℕ :=
  topkIdx (beamComp P t inst) P.size

/-- `topk_scores`: the comparison scores of the selected candidates. -/
def beamTopkScores (P : BeamParams) (t : ℕ) (inst : BInst) : List ℚ :=
  (beamSel P t inst).map fun f => (beamComp P t inst).getD f 0

/-- The running scores carried to the next step.  The source assigns
`topk_log_probs = topk_scores * length_penalty` only inside the
`if alpha > -1:` guard (search.py lines 188-190), and there is no
`else`: with the length penalty disabled nothing is assigned, so this
instance's block of `topk_log_probs` keeps its previous, stale value.
(In that disabled case the source's `topk_log_probs` also still has the
initial flat `batch*k` shape, so the pruning
`topk_log_probs.index_select(0, non_finished)` at line 242 picks wrong
entries and the next iteration's addition raises a shape error unless
`size = 1`; no statement below inspects carried scores on that
degenerate path.) -/
def beamCarried (P : BeamParams) (t : ℕ) (inst : BInst) : List ℚ :=
  if P.alphaGt then (beamTopkScores P t inst).map fun c => c * P.penalty t
  else inst.scores

/-- The gathered-and-extended `alive_seq` rows of one instance
(search.py lines 193-205): origin row `f / vocab`, appended token
`f % vocab`. -/
def beamNewRows (P : BeamParams) (t : ℕ) (inst : BInst) : List (List ℕ) :=
  (beamSel P t inst).map fun f =>
    inst.rows.getD (f / P.vocab) [] ++ [f % P.vocab]

/-- `is_finished` before the per-instance fill (search.py lines 207-209):
the appended token equals EOS, or the step is the last allowed one. -/
def beamFinsRaw (P : BeamParams) (t : ℕ) (inst : BInst) : List Bool :=
  (beamSel P t inst).map fun f =>
    decide (f % P.vocab = P.eosIndex) || decide (t + 1 = P.maxOutputLength)

/-- Result of the loop body on one active instance. -/
structure InstStep where
  inst : BInst
  finsRaw : List Bool
  endCond : Bool
  entries : List (ℚ × List ℕ)

/-- The loop body restricted to one active instance (search.py lines
156-226): select the top-k candidates, rebuild rows and scores, and
collect the hypotheses entering this instance's pool this step —
`(topk_scores[i,j], predictions[i,j,1:])` for every `j` finished after
the `is_finished[i].fill_(1)` that the code performs when the rank-0 slot
is finished. -/
def stepInst (P : BeamParams) (t : ℕ) (inst : BInst) : InstStep :=
  let sel := beamSel P t inst
  let rows := beamNewRows P t inst
  let fr := beamFinsRaw P t inst
  let ec := fr.headD false
  let fins := if ec then List.replicate sel.length true else fr
  ⟨⟨inst.orig, rows, beamCarried P t inst⟩, fr, ec,
   ((List.range sel.length).filter fun j => fins.getD j false).map fun j =>
     ((beamTopkScores P t inst).getD j 0, (rows.getD j []).drop 1)⟩

/-- `sorted(pool, key=lambda x: x[0], reverse=True)`: stable sort by
non-increasing score (search.py lines 229-230). -/
def sortHyps (l : List (ℚ × List ℕ)) : List (ℚ × List ℕ) :=
  l.mergeSort fun a b => decide (b.1 ≤ a.1)

/-- Full beam-search loop state: the active instances in compacted order
plus the per-original-instance hypothesis pools and result sets. -/
structure BState where
  insts : List BInst
  pools : ℕ → List (ℚ × List ℕ)
  rpred : ℕ → List (List ℕ)
  rscore : ℕ → List ℚ

/-- One full iteration of the beam-search loop (search.py lines 155-263)
and the `is_finished.any()` flag.  Appending the (possibly empty) list of
newly finished entries and filtering out the (possibly zero) retiring
instances unconditionally is equivalent to the code's
`if is_finished.any():` guard, under which those updates happen.  The
`n_best` copy loop appends `min n_best (pool length)` entries. -/
def beamStepFull (P : BeamParams) (t : ℕ) (s : BState) : BState × Bool :=
  let procs := s.insts.map (stepInst P t)
  let anyFin := procs.any fun p => p.finsRaw.any id
  let entriesOf : ℕ → List (ℚ × List ℕ) := fun b =>
    (((procs.find? fun p => p.inst.orig = b).map InstStep.entries).getD [])
  let poolOf : ℕ → List (ℚ × List ℕ) := fun b => s.pools b ++ entriesOf b
  let retiring : ℕ → Bool := fun b =>
    (((procs.find? fun p => p.inst.orig = b).map InstStep.endCond).getD false)
  let best : ℕ → List (ℚ × List ℕ) := fun b => (sortHyps (poolOf b)).take P.nBest
  (⟨(procs.filter fun p => !p.endCond).map InstStep.inst,
    poolOf,
    fun b => if retiring b then s.rpred b ++ (best b).map Prod.snd else s.rpred b,
    fun b => if retiring b then s.rscore b ++ (best b).map Prod.fst else s.rscore b⟩,
   anyFin)

/-- Initial beam state (search.py lines 127-153): every instance gets
`size` rows holding only BOS, running scores `[0, -inf, ..., -inf]`,
empty pool and empty result set. -/
def beamInit (P : BeamParams) (batchSize : ℕ) : BState :=
  ⟨(List.range batchSize).map fun b =>
      ⟨b, List.replicate P.size [P.bosIndex],
       0 :: List.replicate (P.size - 1) P.negInf⟩,
   fun _ => [], fun _ => [], fun _ => []⟩

/-- The beam-search loop with its break conditions (search.py lines
155-263): stop when the fuel (`max_output_length`) runs out, or right
after a step in which some slot finished and no instance remains active.
Also counts the scoring-model queries issued (one batched decoder call
per executed iteration). -/
def beamLoop (P : BeamParams) : ℕ → ℕ → BState → ℕ → BState × ℕ
  | _, 0, s, q => (s, q)
  | t, fuel + 1, s, q =>
    if (beamStepFull P t s).2 && (beamStepFull P t s).1.insts.isEmpty then
      ((beamStepFull P t s).1, q + 1)
    else beamLoop P (t + 1) fuel (beamStepFull P t s).1 (q + 1)

/-- The state at the top of iteration `t` of the beam-search loop, when
no early break has occurred before it (the break only cuts the
iteration sequence short, so every state the loop visits is of this
form). -/
def beamRun (P : BeamParams) (batchSize : ℕ) : ℕ → BState
  | 0 => beamInit P batchSize
  | t + 1 => (beamStepFull P t (beamRun P batchSize t)).1

/-- `pad_and_stack_hyps` (search.py lines 265-271): pad every hypothesis
with `pad_value` to the maximum hypothesis length. -/
def padAndStackHyps (hyps : List (List ℕ)) (padValue : ℕ) : List (List ℕ) :=
  let w := (hyps.map List.length).foldr max 0
  hyps.map fun h => h ++ List.replicate (w - h.length) padValue

/-- `beam_search` (search.py lines 85-285).  The first component models
the returned value: `none` renders the `assert n_best == 1` failure
(an `AssertionError` raised after the decode loop, line 274), `some m`
the padded and stacked matrix of each instance's first stored hypothesis.
The second component is the number of scoring-model queries issued.
The attention output (`None` in the source) and the optional
log-probability vector are not modelled; no claim concerns them. -/
def beamSearch (P : BeamParams) (batchSize : ℕ) :
    Option (List (List ℕ)) × ℕ :=
  (if P.nBest = 1 then
     some (padAndStackHyps
       ((List.range batchSize).map fun b =>
         (((beamLoop P 0 P.maxOutputLength (beamInit P batchSize) 0).1).rpred b).headD [])
       P.padIndex)
   else none,
   (beamLoop P 0 P.maxOutputLength (beamInit P batchSize) 0).2)

/-! ## Per-instance decoding trajectory, shared by C1's two sides

For one original batch position `b`, the deterministic per-step argmax
trajectory: `histAt` is the token history after `t` steps (BOS first),
`tokAt` the token selected at step `t`, `outAt` the emitted output row
after `t` steps, `eosCount` the number of EOS among the first `t`
selected tokens. -/

def histAt (M : ℕ → List ℕ → ℕ → ℚ) (V bosIndex b : ℕ) : ℕ → List ℕ
  | 0 => [bosIndex]
  | t + 1 =>
    histAt M V bosIndex b t ++ [argmaxIdx (M b (histAt M V bosIndex b t)) V]

def tokAt (M : ℕ → List ℕ → ℕ → ℚ) (V bosIndex b t : ℕ) : ℕ :=
  argmaxIdx (M b (histAt M V bosIndex b t)) V

def outAt (M : ℕ → List ℕ → ℕ → ℚ) (V bosIndex b t : ℕ) : List ℕ :=
  (histAt M V bosIndex b t).drop 1

def eosCount (M : ℕ → List ℕ → ℕ → ℚ) (V bosIndex eosIndex b t : ℕ) : ℕ :=
  ((List.range t).filter fun i => decide (tokAt M V bosIndex b i = eosIndex)).length

/-- The greedy loop state at the top of iteration `t` for `return_logp =
False`. -/
def gstateAt (M : ℕ → List ℕ → ℕ → ℚ) (V bosIndex eosIndex batchSize t : ℕ) : GState :=
  ⟨(List.range batchSize).map fun b => histAt M V bosIndex b t,
   (List.range batchSize).map fun b => eosCount M V bosIndex eosIndex b t,
   List.replicate batchSize 0, t⟩

/-- The invariant tying the beam-size-1 loop state at the top of
iteration `t` to the per-instance argmax trajectory: the active set
holds exactly the original positions whose retirement time `rt` has not
passed, each with its single `alive_seq` row equal to the trajectory
history; retired positions carry their single truncated hypothesis;
active positions have empty result sets and empty pools. -/
def BeamInvK1 (P : BeamParams) (batchSize : ℕ) (rt : ℕ → ℕ) (t : ℕ) (s : BState) : Prop :=
  (s.insts.map BInst.orig =
      (List.range batchSize).filter fun b => decide (t ≤ rt b)) ∧
    (∀ i ∈ s.insts, i.rows = [histAt P.M P.vocab P.bosIndex i.orig t]) ∧
    (∀ b, b < batchSize → rt b < t →
      s.rpred b = [outAt P.M P.vocab P.bosIndex b (rt b + 1)]) ∧
    (∀ b, b < batchSize → t ≤ rt b → s.rpred b = [] ∧ s.pools b = [])

/-! ## Concrete scoring models used for counterexamples -/

/-- Model that always ranks EOS (id 3) highest, with vocabulary
{PAD=0, UNK=1, BOS=2, EOS=3}. -/
def eosModel : ℕ → List ℕ → ℕ → ℚ := fun _ _ v => if v = 3 then 1 else 0

/-- Scenario A model: vocabulary {PAD=0, UNK=1, BOS=2, EOS=3, a=4, b=5};
ranks `a` (4) highest at steps 0-2 (history length 1-3) and EOS (3)
highest from step 3 on. -/
def scenAModel : ℕ → List ℕ → ℕ → ℚ := fun _ h v =>
  if h.length ≤ 3 then (if v = 4 then 1 else 0) else (if v = 3 then 1 else 0)

/-- Model ranking EOS highest with log-probability `-1/2` (all other
tokens `-2`). -/
def logpModel : ℕ → List ℕ → ℕ → ℚ := fun _ _ v => if v = 3 then -1/2 else -2

/-! ## Helper lemmas about the selection primitives -/

lemma getD_map_range_any {α : Type} (g : ℕ → α) {V i : ℕ} (h : i < V) (d : α) :
    ((List.range V).map g).getD i d = g i := by
  simp [List.getD_eq_getElem?_getD, List.getElem?_map, List.getElem?_range h]

lemma getD_map_range (g : ℕ → ℚ) {V i : ℕ} (h : i < V) :
    ((List.range V).map g).getD i 0 = g i :=
  getD_map_range_any g h 0

lemma idxLe_trans (xs : List ℚ) :
    ∀ a b c, idxLe xs a b → idxLe xs b c → idxLe xs a c := by
  intro a b c hab hbc
  simp only [idxLe, Bool.or_eq_true, Bool.and_eq_true, decide_eq_true_eq] at *
  rcases hab with h1 | ⟨h1, h2⟩ <;> rcases hbc with h3 | ⟨h3, h4⟩
  · exact Or.inl (h3.trans h1)
  · exact Or.inl (h3 ▸ h1)
  · exact Or.inl (h1 ▸ h3)
  · exact Or.inr ⟨h1.trans h3, h2.trans h4⟩

lemma idxLe_total (xs : List ℚ) : ∀ a b, idxLe xs a b || idxLe xs b a := by
  intro a b
  simp only [idxLe, Bool.or_eq_true, Bool.and_eq_true, decide_eq_true_eq]
  rcases lt_trichotomy (xs.getD a 0) (xs.getD b 0) with h | h | h
  · exact Or.inr (Or.inl h)
  · rcases Nat.le_total a b with hab | hab
    · exact Or.inl (Or.inr ⟨h, hab⟩)
    · exact Or.inr (Or.inr ⟨h.symm, hab⟩)
  · exact Or.inl (Or.inl h)

lemma topkIdx_length (xs : List ℚ) (k : ℕ) :
    (topkIdx xs k).length = min k xs.length := by
  simp [topkIdx, List.length_take, List.length_mergeSort, List.length_range]

lemma mem_topkIdx_lt {xs : List ℚ} {k f : ℕ} (h : f ∈ topkIdx xs k) :
    f < xs.length := by
  have h1 : f ∈ (List.range xs.length).mergeSort (idxLe xs) :=
    List.take_subset k _ h
  have h2 : f ∈ List.range xs.length :=
    (List.mergeSort_perm (List.range xs.length) (idxLe xs)).mem_iff.mp h1
  exact List.mem_range.mp h2

lemma topkIdx_dominance {xs : List ℚ} {k f g : ℕ}
    (hf : f ∈ topkIdx xs k) (hg : g < xs.length) (hng : g ∉ topkIdx xs k) :
    xs.getD g 0 ≤ xs.getD f 0 := by
  set L := (List.range xs.length).mergeSort (idxLe xs) with hL
  have hsor : L.Pairwise (fun a b => idxLe xs a b = true) :=
    List.sorted_mergeSort (idxLe_trans xs) (idxLe_total xs) _
  have hgL : g ∈ L :=
    (List.mergeSort_perm (List.range xs.length) (idxLe xs)).mem_iff.mpr
      (List.mem_range.mpr hg)
  have hsplit : L.take k ++ L.drop k = L := List.take_append_drop k L
  have hgdrop : g ∈ L.drop k := by
    have := hsplit ▸ hgL
    rcases List.mem_append.mp this with h | h
    · exact absurd h hng
    · exact h
  have hpw := hsplit ▸ hsor
  have hle : idxLe xs f g = true :=
    (List.pairwise_append.mp hpw).2.2 f hf g hgdrop
  simp only [idxLe, Bool.or_eq_true, Bool.and_eq_true, decide_eq_true_eq] at hle
  rcases hle with h | ⟨h, _⟩
  · exact le_of_lt h
  · exact le_of_eq h.symm

lemma argmaxIdx_zero (g : ℕ → ℚ) : argmaxIdx g 0 = 0 := rfl

lemma argmaxIdx_succ (g : ℕ → ℚ) (V : ℕ) :
    argmaxIdx g (V + 1) =
      if g (argmaxIdx g V) < g V then V else argmaxIdx g V := by
  simp [argmaxIdx, List.range_succ, List.foldl_append]

lemma argmaxIdx_lt (g : ℕ → ℚ) {V : ℕ} (h : 1 ≤ V) : argmaxIdx g V < V := by
  induction V with
  | zero => omega
  | succ V ih =>
    rw [argmaxIdx_succ]
    by_cases hc : g (argmaxIdx g V) < g V
    · simp [hc]
    · rcases Nat.eq_zero_or_pos V with h0 | h1
      · subst h0; simp [hc, argmaxIdx_zero]
      · simp only [hc, if_false]; exact (ih h1).trans (Nat.lt_succ_self V)

lemma argmaxIdx_le (g : ℕ → ℚ) {V j : ℕ} (hj : j < V) :
    g j ≤ g (argmaxIdx g V) := by
  induction V with
  | zero => omega
  | succ V ih =>
    rw [argmaxIdx_succ]
    by_cases hc : g (argmaxIdx g V) < g V
    · simp only [hc, if_true]
      rcases Nat.lt_succ_iff_lt_or_eq.mp hj with h | h
      · exact (ih h).trans (le_of_lt hc)
      · exact h ▸ le_refl _
    · simp only [hc, if_false]
      rcases Nat.lt_succ_iff_lt_or_eq.mp hj with h | h
      · exact ih h
      · rw [h]; exact le_of_not_lt hc

lemma argmaxIdx_first (g : ℕ → ℚ) {V j : ℕ} (hj : j < argmaxIdx g V) :
    g j < g (argmaxIdx g V) := by
  induction V with
  | zero => rw [argmaxIdx_zero] at hj; omega
  | succ V ih =>
    rw [argmaxIdx_succ] at hj ⊢
    by_cases hc : g (argmaxIdx g V) < g V
    · simp only [hc, if_true] at hj ⊢
      exact lt_of_le_of_lt (argmaxIdx_le g hj) hc
    · simp only [hc, if_false] at hj ⊢
      exact ih hj

lemma argmaxIdx_shift (g : ℕ → ℚ) (c : ℚ) (V : ℕ) :
    argmaxIdx (fun v => g v + c) V = argmaxIdx g V := by
  induction V with
  | zero => rfl
  | succ V ih =>
    rw [argmaxIdx_succ, argmaxIdx_succ]
    simp only [ih, add_lt_add_iff_right]

lemma argmaxIdx_unique (g : ℕ → ℚ) {V a : ℕ} (ha : a < V)
    (hle : ∀ j < V, g j ≤ g a) (hfirst : ∀ j < a, g j < g a) :
    a = argmaxIdx g V := by
  set m := argmaxIdx g V with hm
  have hmV : m < V := argmaxIdx_lt g (by omega)
  rcases Nat.lt_trichotomy a m with h | h | h
  · exact absurd (hle m hmV) (not_le_of_lt (argmaxIdx_first g h))
  · exact h
  · exact absurd (argmaxIdx_le g ha) (not_le_of_lt (hfirst m h))

lemma topkIdx_one_eq_argmax (g : ℕ → ℚ) {V : ℕ} (hV : 1 ≤ V) :
    topkIdx ((List.range V).map g) 1 = [argmaxIdx g V] := by
  set xs := (List.range V).map g with hxs
  have hlen : xs.length = V := by simp [hxs]
  set L := (List.range xs.length).mergeSort (idxLe xs) with hL
  have hperm := List.mergeSort_perm (List.range xs.length) (idxLe xs)
  have hLlen : L.length = V := by
    rw [hL, List.length_mergeSort, List.length_range, hlen]
  have hsor : L.Pairwise (fun a b => idxLe xs a b = true) :=
    List.sorted_mergeSort (idxLe_trans xs) (idxLe_total xs) _
  obtain ⟨i0, L', hcons⟩ : ∃ i0 L', L = i0 :: L' := by
    cases hLc : L with
    | nil => rw [hLc] at hLlen; simp at hLlen; omega
    | cons a l => exact ⟨a, l, rfl⟩
  have hmemL : ∀ j, j < V → j ∈ L := by
    intro j hj
    exact hperm.mem_iff.mpr (List.mem_range.mpr (hlen ▸ hj))
  have hi0V : i0 < V := by
    have : i0 ∈ L := hcons ▸ List.mem_cons_self i0 L'
    have := hperm.mem_iff.mp this
    exact hlen ▸ List.mem_range.mp this
  have hgetD : ∀ j, j < V → xs.getD j 0 = g j := fun j hj => getD_map_range g hj
  have hpw : ∀ j ∈ L', idxLe xs i0 j = true := by
    have := hcons ▸ hsor
    exact (List.pairwise_cons.mp this).1
  have hle : ∀ j < V, g j ≤ g i0 := by
    intro j hj
    rcases List.mem_cons.mp (hcons ▸ hmemL j hj) with h | h
    · exact h ▸ le_refl _
    · have := hpw j h
      simp only [idxLe, Bool.or_eq_true, Bool.and_eq_true, decide_eq_true_eq] at this
      rw [hgetD j hj, hgetD i0 hi0V] at this
      rcases this with h' | ⟨h', _⟩
      · exact le_of_lt h'
      · exact le_of_eq h'.symm
  have hfirst : ∀ j < i0, g j < g i0 := by
    intro j hj
    have hjV : j < V := hj.trans hi0V
    rcases List.mem_cons.mp (hcons ▸ hmemL j hjV) with h | h
    · omega
    · have := hpw j h
      simp only [idxLe, Bool.or_eq_true, Bool.and_eq_true, decide_eq_true_eq] at this
      rw [hgetD j hjV, hgetD i0 hi0V] at this
      rcases this with h' | ⟨_, h'⟩
      · exact h'
      · omega
  have : i0 = argmaxIdx g V := argmaxIdx_unique g hi0V hle hfirst
  rw [topkIdx, ← hL, hcons, ← this]
  rfl

/-! ## C2, C3, C8, C9 -/

/-- C2: the greedy decode loop does NOT stop once every instance has
produced EOS at least once: the test `(end > 1).sum() >= batch_size`
requires every instance's EOS counter to exceed 1, i.e. at least two EOS
occurrences.  On a batch of one instance whose model always ranks EOS
highest, with `max_output_length = 3`, the loop executes 2 steps (the
claimed semantics would stop after 1) and the output row is `[3, 3]`,
not `[3]`.  This contradicts the code's own comments
("check if eos reached", "stop when all hyps in batch reach eos"). -/
theorem C2_greedy_stop_requires_second_eos :
    (greedyFinal eosModel 2 3 4 3 1 false).steps = 2 ∧
      (greedy eosModel 2 3 4 3 1 false).1 = [[3, 3]] := by
  constructor
  · decide
  · decide

/-- C3: with `return_logp = True` the log-probability of the first EOS
position itself is NOT accumulated: `end` is incremented before the gate
`end < 1` is evaluated, so the gate is already false at the first EOS
step.  On a batch of two instances whose model ranks EOS highest with
log-probability `-1/2`, the returned vector is `[0, 0]` although the sum
of the selected log-probabilities up to and including the first EOS is
`-1/2` per instance.  This contradicts the code's own comment
("True for tokens up till eos (incl)") and docstring ("excluding
predictions after `</s>`"). -/
theorem C3_logp_excludes_first_eos_position :
    (greedy logpModel 2 3 4 2 2 true).2 = [0, 0] ∧
      [(0 : ℚ), 0] ≠ [-1/2, -1/2] := by
  constructor
  · with_unfolding_all decide
  · with_unfolding_all decide

/-- C8 counterexample: on Scenario A's vocabulary and model, greedy with
`max_output_length = 6` does not return `[4,4,4,3,0,0]`: it never pads
with PAD and keeps decoding past the first EOS. -/
theorem C8_counterexample :
    (greedy scenAModel 2 3 6 6 1 false).1 ≠ [[4, 4, 4, 3, 0, 0]] := by
  decide

/-- C8 amended: on Scenario A's vocabulary and model, greedy returns the
row `[4,4,4,3,3]`: `a a a` at steps 0-2, EOS at position 3, then one more
step whose argmax (EOS again) is recorded, after which the loop stops
because the instance's EOS count exceeds 1.  No PAD filling occurs
(`greedy` takes no pad index and writes the per-step argmax as-is). -/
theorem C8_amended_greedy_row :
    (greedy scenAModel 2 3 6 6 1 false).1 = [[4, 4, 4, 3, 3]] := by
  decide

lemma greedyStep_logps_false (M : ℕ → List ℕ → ℕ → ℚ) (eosIndex V : ℕ)
    (s : GState) : (greedyStep M eosIndex V false s).logps = s.logps := by
  simp [greedyStep]

lemma greedyLoop_logps_false (M : ℕ → List ℕ → ℕ → ℚ) (eosIndex V batchSize : ℕ) :
    ∀ (fuel : ℕ) (s : GState),
      (greedyLoop M eosIndex V false batchSize fuel s).logps = s.logps := by
  intro fuel
  induction fuel with
  | zero => intro s; rfl
  | succ fuel ih =>
    intro s
    rw [greedyLoop]
    split
    · exact greedyStep_logps_false M eosIndex V s
    · rw [ih]; exact greedyStep_logps_false M eosIndex V s

/-- C9: with `return_logp = False`, the third returned value of `greedy`
is the initial `np.zeros(batch_size)` vector, returned unchanged (never
`None` or absent; the accumulation branch is skipped).  The hypothesis
`1 ≤ max_output_length` excludes the degenerate call on which the source
would raise in `np.stack` before returning anything. -/
theorem C9_greedy_logp_false_returns_zeros
    (M : ℕ → List ℕ → ℕ → ℚ) (bosIndex eosIndex V maxOutputLength batchSize : ℕ)
    (_h : 1 ≤ maxOutputLength) :
    (greedy M bosIndex eosIndex V maxOutputLength batchSize false).2 =
      List.replicate batchSize 0 := by
  simp only [greedy, greedyFinal]
  rw [greedyLoop_logps_false]

/-- Witness for C9 at a concrete input. -/
theorem C9_witness :
    1 ≤ 2 ∧ (greedy eosModel 2 3 4 2 1 false).2 = List.replicate 1 0 := by
  exact ⟨by decide, C9_greedy_logp_false_returns_zeros eosModel 2 3 4 2 1 (by decide)⟩

/-! ## Per-step beam lemmas (C5, C6) -/

lemma getD_map_lt {α β : Type} (f : α → β) (l : List α) {j : ℕ}
    (hj : j < l.length) (d : α) (d' : β) :
    (l.map f).getD j d' = f (l.getD j d) := by
  have hj' : j < (l.map f).length := by simpa using hj
  rw [List.getD_eq_getElem l d hj, List.getD_eq_getElem _ d' hj']
  simp

lemma beamCand_length (P : BeamParams) (inst : BInst) :
    (beamCand P inst).length = P.size * P.vocab := by
  simp [beamCand]

lemma beamComp_length (P : BeamParams) (t : ℕ) (inst : BInst) :
    (beamComp P t inst).length = P.size * P.vocab := by
  rcases h : P.alphaGt <;> simp [beamComp, h, beamCand_length]

lemma beamSel_length (P : BeamParams) (t : ℕ) (inst : BInst) :
    (beamSel P t inst).length = min P.size (P.size * P.vocab) := by
  rw [beamSel, topkIdx_length, beamComp_length]

lemma beamSel_getD_mem (P : BeamParams) (t : ℕ) (inst : BInst) {j : ℕ}
    (hj : j < (beamSel P t inst).length) :
    (beamSel P t inst).getD j 0 ∈ beamSel P t inst := by
  rw [List.getD_eq_getElem _ _ hj]
  exact List.getElem_mem hj

lemma beamSel_getD_lt (P : BeamParams) (t : ℕ) (inst : BInst) {j : ℕ}
    (hj : j < (beamSel P t inst).length) :
    (beamSel P t inst).getD j 0 < P.size * P.vocab := by
  have := mem_topkIdx_lt (beamSel_getD_mem P t inst hj)
  rwa [beamComp_length] at this

lemma stepInst_scores (P : BeamParams) (t : ℕ) (inst : BInst) :
    (stepInst P t inst).inst.scores = beamCarried P t inst := rfl

/-- When `alpha > -1`, the divide-then-multiply-back of search.py lines
177-190 cancels exactly: the carried scores are the unnormalized
candidate sums at the selected flattened indices. -/
lemma beamCarried_alphaGt_reconstruct (P : BeamParams) (t : ℕ) (inst : BInst)
    (ha : P.alphaGt = true) (hpen : P.penalty t ≠ 0) (j : ℕ)
    (hj : j < (beamSel P t inst).length) :
    (stepInst P t inst).inst.scores.getD j 0 =
      (beamCand P inst).getD ((beamSel P t inst).getD j 0) 0 := by
  rw [stepInst_scores]
  have hflt : (beamSel P t inst).getD j 0 < (beamCand P inst).length := by
    rw [beamCand_length]; exact beamSel_getD_lt P t inst hj
  have hcomp : beamComp P t inst = (beamCand P inst).map fun c => c / P.penalty t := by
    simp [beamComp, ha]
  have hcar : beamCarried P t inst =
      (beamTopkScores P t inst).map fun c => c * P.penalty t := by
    simp [beamCarried, ha]
  have hjt : j < (beamTopkScores P t inst).length := by
    simpa [beamTopkScores] using hj
  rw [hcar, getD_map_lt _ _ hjt 0 0, beamTopkScores, getD_map_lt _ _ hj 0 0,
    hcomp, getD_map_lt _ _ hflt 0 0, div_mul_cancel₀ _ hpen]

/-- C5: the second half of the claim is false of the code.  The
assignment `topk_log_probs = topk_scores * length_penalty` sits inside
the `if alpha > -1:` guard (search.py lines 188-190) with no `else`, so
with the length penalty disabled the running scores are never updated.
At the failing input — `alpha <= -1`, beam size 1, vocabulary 4, the
always-EOS model (log-probability 1 for token 3), instance state rows
`[[2]]`, scores `[0]`, step 0 — the selected flattened index is 3 and
the selected unnormalized sum is `1`, yet the carried scores after the
step are still the stale `[0]`.  The code's own comments, "multiply
probs by the beam probability (=add logprobs)" (line 173) and "recover
original log probs" (line 189), document the claimed semantics, and the
`alpha > -1` path does maintain it (`beamCarried_alphaGt_reconstruct`),
so the missing assignment is a slip. -/
theorem C5_disabled_penalty_leaves_scores_stale :
    (beamSel ⟨eosModel, 1, 4, 2, 3, 0, 5, false, fun _ => 1, 1, -1000⟩ 0
        ⟨0, [[2]], [0]⟩).getD 0 0 = 3 ∧
      (beamCand ⟨eosModel, 1, 4, 2, 3, 0, 5, false, fun _ => 1, 1, -1000⟩
          ⟨0, [[2]], [0]⟩).getD 3 0 = 1 ∧
      (stepInst ⟨eosModel, 1, 4, 2, 3, 0, 5, false, fun _ => 1, 1, -1000⟩ 0
          ⟨0, [[2]], [0]⟩).inst.scores = [0] ∧
      (0 : ℚ) ≠ 1 := by
  refine ⟨?_, ?_, ?_, ?_⟩ <;> with_unfolding_all decide

/-- C6: at every beam-search step, for each active instance, the
retained candidates are top-k entries of the flattened `size * vocab`
score matrix (every selected flattened index is in range and dominates
every unselected one), each selected index `f` decomposes as origin
`f / vocab` and token `f % vocab` with `origin * vocab + token = f`
(this is how the new rows are built), and the flattened matrix itself
holds, at `k * vocab + v`, the log-probability of token `v` after row
`k` plus row `k`'s running score. -/
theorem C6_flattened_topk_decomposition (P : BeamParams) (t : ℕ) (inst : BInst) :
    (∀ f ∈ beamSel P t inst, f < P.size * P.vocab ∧
        ∀ g, g < P.size * P.vocab → g ∉ beamSel P t inst →
          (beamComp P t inst).getD g 0 ≤ (beamComp P t inst).getD f 0) ∧
      (∀ j, j < (beamSel P t inst).length →
        (beamNewRows P t inst).getD j [] =
            inst.rows.getD ((beamSel P t inst).getD j 0 / P.vocab) [] ++
              [(beamSel P t inst).getD j 0 % P.vocab] ∧
          (beamSel P t inst).getD j 0 / P.vocab * P.vocab +
              (beamSel P t inst).getD j 0 % P.vocab =
            (beamSel P t inst).getD j 0) ∧
      (∀ k v, k < P.size → v < P.vocab →
        (beamCand P inst).getD (k * P.vocab + v) 0 =
          P.M inst.orig (inst.rows.getD k []) v + inst.scores.getD k 0) := by
  refine ⟨?_, ?_, ?_⟩
  · intro f hf
    constructor
    · have := mem_topkIdx_lt hf
      rwa [beamComp_length] at this
    · intro g hg hng
      exact topkIdx_dominance hf (by rwa [beamComp_length]) hng
  · intro j hj
    constructor
    · rw [beamNewRows, getD_map_lt _ _ hj 0 []]
    · rw [mul_comm]; exact Nat.div_add_mod _ _
  · intro k v hk hv
    have hV : 0 < P.vocab := by omega
    have hlt : k * P.vocab + v < P.size * P.vocab := by
      calc k * P.vocab + v < k * P.vocab + P.vocab := by omega
       _ = (k + 1) * P.vocab := by ring
       _ ≤ P.size * P.vocab := Nat.mul_le_mul_right _ (by omega)
    rw [beamCand, getD_map_range _ hlt]
    have hdiv : (k * P.vocab + v) / P.vocab = k := by
      rw [mul_comm k P.vocab, Nat.mul_add_div hV, Nat.div_eq_of_lt hv, Nat.add_zero]
    have hmod : (k * P.vocab + v) % P.vocab = v := by
      rw [mul_comm k P.vocab, Nat.mul_add_mod, Nat.mod_eq_of_lt hv]
    rw [hdiv, hmod]

/-- Witness for C6 at a concrete input: beam size 2, vocabulary 4;
applies the flattened-matrix entry identity and the index decomposition
at concrete coordinates. -/
theorem C6_witness :
    ((1 : ℕ) < 2 ∧ 2 < 4) ∧
      (beamCand ⟨eosModel, 2, 4, 2, 3, 0, 3, false, fun _ => 1, 1, -1000⟩
          ⟨0, [[2], [2]], [0, -1000]⟩).getD (1 * 4 + 2) 0 =
        eosModel 0 [2] 2 + (-1000) := by
  refine ⟨⟨by decide, by decide⟩, ?_⟩
  exact (C6_flattened_topk_decomposition
      ⟨eosModel, 2, 4, 2, 3, 0, 3, false, fun _ => 1, 1, -1000⟩ 0
      ⟨0, [[2], [2]], [0, -1000]⟩).2.2 1 2 (by decide) (by decide)

/-! ## Retirement of an instance (C7) -/

lemma sortHyps_perm (l : List (ℚ × List ℕ)) : (sortHyps l).Perm l :=
  List.mergeSort_perm l _

lemma sortHyps_sorted (l : List (ℚ × List ℕ)) :
    (sortHyps l).Pairwise fun a b => b.1 ≤ a.1 := by
  have h := @List.sorted_mergeSort (ℚ × List ℕ)
    (fun a b => decide (b.1 ≤ a.1))
    (fun a b c hab hbc => by
      simp only [decide_eq_true_eq] at *
      exact le_trans hbc hab)
    (fun a b => by
      simp only [Bool.or_eq_true, decide_eq_true_eq]
      exact (le_total b.1 a.1))
    l
  exact h.imp (by simp)

lemma stepInst_orig (P : BeamParams) (t : ℕ) (inst : BInst) :
    (stepInst P t inst).inst.orig = inst.orig := rfl

lemma find?_stepInst_eq (P : BeamParams) (t : ℕ) (l : List BInst) (inst : BInst)
    (hmem : inst ∈ l) (hnodup : (l.map BInst.orig).Nodup) :
    (l.map (stepInst P t)).find? (fun p => p.inst.orig = inst.orig) =
      some (stepInst P t inst) := by
  induction l with
  | nil => cases hmem
  | cons a l ih =>
    rcases List.mem_cons.mp hmem with h | h
    · subst h
      simp [List.find?_cons, stepInst_orig]
    · have hcons2 : a.orig ∉ l.map BInst.orig ∧ (l.map BInst.orig).Nodup := by
        rw [List.map_cons, List.nodup_cons] at hnodup
        exact hnodup
      have hno : a.orig ≠ inst.orig := by
        intro he
        exact hcons2.1 (by rw [he]; exact List.mem_map.mpr ⟨inst, h, rfl⟩)
      have hpa : (fun p : InstStep => decide (p.inst.orig = inst.orig))
          (stepInst P t a) = false := by
        simp [stepInst_orig, hno]
      simp only [List.map_cons, List.find?_cons, hpa]
      exact ih h hcons2.2

lemma stepInst_entries_of_endCond (P : BeamParams) (t : ℕ) (inst : BInst)
    (hec : (stepInst P t inst).endCond = true) :
    (stepInst P t inst).entries =
      (List.range (beamSel P t inst).length).map fun j =>
        ((beamTopkScores P t inst).getD j 0,
          ((beamNewRows P t inst).getD j []).drop 1) := by
  have hfr : (beamFinsRaw P t inst).headD false = true := hec
  have hfil : ((List.range (beamSel P t inst).length).filter fun j =>
      (List.replicate (beamSel P t inst).length true).getD j false) =
      List.range (beamSel P t inst).length := by
    rw [List.filter_eq_self]
    intro j hj
    have hjlt : j < (beamSel P t inst).length := List.mem_range.mp hj
    have : (List.replicate (beamSel P t inst).length true).getD j false = true := by
      rw [List.getD_eq_getElem _ _ (by simpa using hjlt)]
      simp
    simpa using this
  simp only [stepInst, hfr, if_true]
  rw [hfil]

/-- C7: whenever an active instance's rank-0 beam slot finishes, the
instance retires: every one of the `size` slots of this step (in
particular every newly finished one) is recorded in the entries appended
to its hypothesis pool, its result set is extended with the first
`n_best` entries of the pool sorted by non-increasing score, those
results come from the pool, they are sorted by non-increasing score,
there are at most `n_best` and at most `beam_size` of them, every stored
prediction drops the leading BOS token (`predictions[i, j, 1:]`), and
the instance leaves the active set. -/
theorem C7_rank0_finish_retires_instance (P : BeamParams) (t : ℕ) (s : BState)
    (inst : BInst) (hmem : inst ∈ s.insts)
    (hnodup : (s.insts.map BInst.orig).Nodup)
    (hec : (stepInst P t inst).endCond = true)
    (hnb : P.nBest ≤ P.size) (hV : 1 ≤ P.vocab) :
    (∀ j, j < P.size →
        ((beamTopkScores P t inst).getD j 0,
          ((beamNewRows P t inst).getD j []).drop 1) ∈ (stepInst P t inst).entries) ∧
      (beamStepFull P t s).1.rpred inst.orig =
          s.rpred inst.orig ++
            ((sortHyps (s.pools inst.orig ++ (stepInst P t inst).entries)).take
              P.nBest).map Prod.snd ∧
      (beamStepFull P t s).1.rscore inst.orig =
          s.rscore inst.orig ++
            ((sortHyps (s.pools inst.orig ++ (stepInst P t inst).entries)).take
              P.nBest).map Prod.fst ∧
      ((sortHyps (s.pools inst.orig ++ (stepInst P t inst).entries)).take
          P.nBest).Pairwise (fun a b => b.1 ≤ a.1) ∧
      ((sortHyps (s.pools inst.orig ++ (stepInst P t inst).entries)).take
          P.nBest).length ≤ P.nBest ∧
      ((sortHyps (s.pools inst.orig ++ (stepInst P t inst).entries)).take
          P.nBest).length ≤ P.size ∧
      (∀ r ∈ (sortHyps (s.pools inst.orig ++ (stepInst P t inst).entries)).take
          P.nBest, r ∈ s.pools inst.orig ++ (stepInst P t inst).entries) ∧
      inst.orig ∉ ((beamStepFull P t s).1.insts.map BInst.orig) := by
  have hfind := find?_stepInst_eq P t s.insts inst hmem hnodup
  have hsellen : (beamSel P t inst).length = P.size := by
    rw [beamSel_length]
    exact Nat.min_eq_left (Nat.le_mul_of_pos_right _ (by omega))
  refine ⟨?_, ?_, ?_, ?_, ?_, ?_, ?_, ?_⟩
  · intro j hj
    rw [stepInst_entries_of_endCond P t inst hec]
    exact List.mem_map.mpr ⟨j, List.mem_range.mpr (by omega), rfl⟩
  · simp only [beamStepFull, hfind]
    simp [hec]
  · simp only [beamStepFull, hfind]
    simp [hec]
  · exact (sortHyps_sorted _).sublist (List.take_sublist _ _)
  · rw [List.length_take]; exact Nat.min_le_left _ _
  · rw [List.length_take]
    exact le_trans (Nat.min_le_left _ _) hnb
  · intro r hr
    exact (sortHyps_perm _).subset (List.take_subset _ _ hr)
  · intro hcontra
    rcases List.mem_map.mp hcontra with ⟨i2, hi2, horig⟩
    simp only [beamStepFull] at hi2
    rcases List.mem_map.mp hi2 with ⟨p, hp, hpi⟩
    rcases List.mem_filter.mp hp with ⟨hpmem, hpcond⟩
    rcases List.mem_map.mp hpmem with ⟨i3, hi3, hpi3⟩
    have : i3 = inst := by
      apply List.inj_on_of_nodup_map hnodup hi3 hmem
      rw [← stepInst_orig P t i3, hpi3, hpi, horig]
    subst this
    rw [← hpi3, hec] at hpcond
    simp at hpcond

/-- Witness for C7 at a concrete input: beam size 1, the always-EOS
model, a singleton active set whose rank-0 slot finishes at step 0. -/
theorem C7_witness :
    ((⟨0, [[2]], [0]⟩ : BInst) ∈ [(⟨0, [[2]], [0]⟩ : BInst)] ∧
        (stepInst ⟨eosModel, 1, 4, 2, 3, 0, 5, false, fun _ => 1, 1, -1000⟩ 0
          ⟨0, [[2]], [0]⟩).endCond = true) ∧
      (0 : ℕ) ∉ ((beamStepFull ⟨eosModel, 1, 4, 2, 3, 0, 5, false, fun _ => 1, 1, -1000⟩ 0
          ⟨[⟨0, [[2]], [0]⟩], fun _ => [], fun _ => [], fun _ => []⟩).1.insts.map
            BInst.orig) := by
  refine ⟨⟨by decide, by with_unfolding_all decide⟩, ?_⟩
  have h := C7_rank0_finish_retires_instance
    ⟨eosModel, 1, 4, 2, 3, 0, 5, false, fun _ => 1, 1, -1000⟩ 0
    ⟨[⟨0, [[2]], [0]⟩], fun _ => [], fun _ => [], fun _ => []⟩
    ⟨0, [[2]], [0]⟩ (by decide) (by decide) (by with_unfolding_all decide)
    (by decide) (by decide)
  exact h.2.2.2.2.2.2.2

/-! ## The `alive_seq` invariant (C10) -/

/-- C10: throughout the beam-search loop, every active instance keeps
exactly `size` rows of `alive_seq`, every row begins with `bos_index`,
and at the top of iteration `t` (hence at the end of the body of step
`t - 1`) every row has exactly `t + 1` tokens: the initial BOS plus one
token appended per completed step.  Both the row-gather by
`select_indices` and the removal of retired instances preserve this. -/
theorem C10_alive_seq_rows_bos_and_length (P : BeamParams) (batchSize : ℕ)
    (hV : 1 ≤ P.vocab) :
    ∀ t, ∀ inst ∈ (beamRun P batchSize t).insts,
      inst.rows.length = P.size ∧
        ∀ r ∈ inst.rows, r.length = t + 1 ∧ r.head? = some P.bosIndex := by
  intro t
  induction t with
  | zero =>
    intro inst hmem
    simp only [beamRun, beamInit] at hmem
    rcases List.mem_map.mp hmem with ⟨b, _, hb⟩
    subst hb
    refine ⟨by simp, ?_⟩
    intro r hr
    have : r = [P.bosIndex] := List.eq_of_mem_replicate hr
    subst this
    exact ⟨rfl, rfl⟩
  | succ t ih =>
    intro inst hmem
    simp only [beamRun, beamStepFull] at hmem
    rcases List.mem_map.mp hmem with ⟨p, hp, hpi⟩
    rcases List.mem_filter.mp hp with ⟨hpmem, _⟩
    rcases List.mem_map.mp hpmem with ⟨i0, hi0, hpi0⟩
    have hrows : inst.rows = beamNewRows P t i0 := by
      rw [← hpi, ← hpi0]; rfl
    have hIH := ih i0 hi0
    have hsellen : (beamSel P t i0).length = P.size := by
      rw [beamSel_length]
      exact Nat.min_eq_left (Nat.le_mul_of_pos_right _ (by omega))
    constructor
    · rw [hrows, beamNewRows, List.length_map, hsellen]
    · intro r hr
      rw [hrows, beamNewRows] at hr
      rcases List.mem_map.mp hr with ⟨f, hf, hfr⟩
      have hflt : f < P.size * P.vocab := by
        have := mem_topkIdx_lt hf
        rwa [beamComp_length] at this
      have hdivlt : f / P.vocab < P.size :=
        (Nat.div_lt_iff_lt_mul (by omega)).mpr hflt
      have hdivlt' : f / P.vocab < i0.rows.length := by rw [hIH.1]; exact hdivlt
      have hrowmem : i0.rows.getD (f / P.vocab) [] ∈ i0.rows := by
        rw [List.getD_eq_getElem _ _ hdivlt']
        exact List.getElem_mem hdivlt'
      have hold := hIH.2 _ hrowmem
      subst hfr
      constructor
      · rw [List.length_append, hold.1]; rfl
      · rw [List.head?_append, hold.2]
        rfl

/-- Witness for C10 at a concrete input (Scenario A model, beam size 2,
vocabulary 6, state at the top of iteration 1). -/
theorem C10_witness :
    ((1 : ℕ) ≤ 6 ∧
        (⟨0, [[2, 4], [2, 0]], [0, -1000]⟩ : BInst) ∈
          (beamRun ⟨scenAModel, 2, 6, 2, 3, 0, 3, false, fun _ => 1, 1, -1000⟩ 1 1).insts) ∧
      (⟨0, [[2, 4], [2, 0]], [0, -1000]⟩ : BInst).rows.length = 2 ∧
        ∀ r ∈ (⟨0, [[2, 4], [2, 0]], [0, -1000]⟩ : BInst).rows,
          r.length = 1 + 1 ∧ r.head? = some 2 := by
  refine ⟨⟨by decide, by with_unfolding_all decide⟩, ?_⟩
  exact C10_alive_seq_rows_bos_and_length
    ⟨scenAModel, 2, 6, 2, 3, 0, 3, false, fun _ => 1, 1, -1000⟩ 1 (by decide) 1
    ⟨0, [[2, 4], [2, 0]], [0, -1000]⟩ (by with_unfolding_all decide)

/-! ## Configuration-error timing (C4) -/

lemma beamLoop_queries_ge (P : BeamParams) :
    ∀ (fuel t : ℕ) (s : BState) (q : ℕ),
      q ≤ (beamLoop P t fuel s q).2 ∧
        (1 ≤ fuel → q + 1 ≤ (beamLoop P t fuel s q).2) := by
  intro fuel
  induction fuel with
  | zero => intro t s q; exact ⟨le_refl q, by omega⟩
  | succ fuel ih =>
    intro t s q
    rw [beamLoop]
    split
    · exact ⟨by omega, fun _ => le_refl _⟩
    · have h := (ih (t + 1) (beamStepFull P t s).1 (q + 1)).1
      exact ⟨by omega, fun _ => h⟩

/-- C4 counterexample: with beam size 2 and `n_best = 3` (a malformed
configuration: `n_best` exceeds the beam size), `beam_search` on a batch
of one instance raises the `assert n_best == 1` failure only after the
decode loop: one scoring-model query has already been issued, refuting
detection "before any scoring-model query is issued". -/
theorem C4_counterexample :
    beamSearch ⟨eosModel, 2, 4, 2, 3, 0, 1, false, fun _ => 1, 3, -1000⟩ 1 =
        (none, 1) ∧ (1 : ℕ) ≠ 0 := by
  constructor
  · with_unfolding_all decide
  · decide

/-- C4 amended: the only configuration check in `beam_search` is
`assert n_best == 1`, and it runs after the decode loop: for every
configuration with `n_best ≠ 1` and `max_output_length ≥ 1` the call
fails, but only after at least one scoring-model query has been issued.
Beam size and batch-shape mismatches are never checked at all. -/
theorem C4_assert_after_loop (P : BeamParams) (batchSize : ℕ)
    (hnb : P.nBest ≠ 1) (hlen : 1 ≤ P.maxOutputLength) :
    (beamSearch P batchSize).1 = none ∧ 1 ≤ (beamSearch P batchSize).2 := by
  constructor
  · simp [beamSearch, hnb]
  · have h := (beamLoop_queries_ge P P.maxOutputLength 0 (beamInit P batchSize) 0).2 hlen
    simpa [beamSearch] using h

lemma histAt_succ (M : ℕ → List ℕ → ℕ → ℚ) (V bosIndex b t : ℕ) :
    histAt M V bosIndex b (t + 1) =
      histAt M V bosIndex b t ++ [tokAt M V bosIndex b t] := rfl

lemma histAt_length (M : ℕ → List ℕ → ℕ → ℚ) (V bosIndex b : ℕ) :
    ∀ t, (histAt M V bosIndex b t).length = t + 1 := by
  intro t
  induction t with
  | zero => rfl
  | succ t ih => rw [histAt_succ, List.length_append, ih]; rfl

lemma outAt_zero (M : ℕ → List ℕ → ℕ → ℚ) (V bosIndex b : ℕ) :
    outAt M V bosIndex b 0 = [] := rfl

lemma outAt_succ (M : ℕ → List ℕ → ℕ → ℚ) (V bosIndex b t : ℕ) :
    outAt M V bosIndex b (t + 1) =
      outAt M V bosIndex b t ++ [tokAt M V bosIndex b t] := by
  unfold outAt
  rw [histAt_succ, List.drop_append_of_le_length (by rw [histAt_length]; omega)]

lemma mem_outAt (M : ℕ → List ℕ → ℕ → ℚ) (V bosIndex b : ℕ) :
    ∀ t x, x ∈ outAt M V bosIndex b t → ∃ i, i < t ∧ x = tokAt M V bosIndex b i := by
  intro t
  induction t with
  | zero => intro x hx; rw [outAt_zero] at hx; cases hx
  | succ t ih =>
    intro x hx
    rw [outAt_succ] at hx
    rcases List.mem_append.mp hx with h | h
    · rcases ih x h with ⟨i, hi, hx⟩
      exact ⟨i, by omega, hx⟩
    · rcases List.mem_singleton.mp h with h
      exact ⟨t, by omega, h⟩

lemma outAt_decomp (M : ℕ → List ℕ → ℕ → ℚ) (V bosIndex b : ℕ) :
    ∀ t e, e < t → ∃ ys, outAt M V bosIndex b t = outAt M V bosIndex b (e + 1) ++ ys := by
  intro t
  induction t with
  | zero => intro e he; omega
  | succ t ih =>
    intro e he
    rcases Nat.lt_or_ge e t with h | h
    · rcases ih e h with ⟨ys, hys⟩
      exact ⟨ys ++ [tokAt M V bosIndex b t], by
        rw [outAt_succ, hys, List.append_assoc]⟩
    · have : e = t := by omega
      subst this
      exact ⟨[], by rw [List.append_nil]⟩

lemma eosCount_succ (M : ℕ → List ℕ → ℕ → ℚ) (V bosIndex eosIndex b t : ℕ) :
    eosCount M V bosIndex eosIndex b (t + 1) =
      eosCount M V bosIndex eosIndex b t +
        if tokAt M V bosIndex b t = eosIndex then 1 else 0 := by
  unfold eosCount
  rw [List.range_succ, List.filter_append, List.length_append]
  by_cases h : tokAt M V bosIndex b t = eosIndex <;> simp [h]

lemma eosCount_exists_eos (M : ℕ → List ℕ → ℕ → ℚ) (V bosIndex eosIndex b t : ℕ)
    (h : 1 ≤ eosCount M V bosIndex eosIndex b t) :
    ∃ i, i < t ∧ tokAt M V bosIndex b i = eosIndex := by
  unfold eosCount at h
  have hne : ((List.range t).filter fun i =>
      decide (tokAt M V bosIndex b i = eosIndex)) ≠ [] := by
    intro hnil; rw [hnil] at h; simp at h
  rcases List.exists_mem_of_ne_nil _ hne with ⟨i, hi⟩
  rcases List.mem_filter.mp hi with ⟨hir, hieq⟩
  exact ⟨i, List.mem_range.mp hir, by simpa using hieq⟩

/-- Truncation at the first EOS of a row with no earlier EOS. -/
lemma truncAtEos_append_eos (eosIndex : ℕ) (ys : List ℕ) :
    ∀ xs, eosIndex ∉ xs →
      truncAtEos eosIndex (xs ++ eosIndex :: ys) = xs ++ [eosIndex] := by
  intro xs
  induction xs with
  | nil => intro _; simp [truncAtEos]
  | cons a xs ih =>
    intro hmem
    have ha : a ≠ eosIndex := fun h => hmem (h ▸ List.mem_cons_self a xs)
    simp only [List.cons_append, truncAtEos, if_neg ha, List.append_eq]
    rw [ih (fun h => hmem (List.mem_cons_of_mem a h))]

lemma truncAtEos_of_not_mem (eosIndex : ℕ) :
    ∀ xs, eosIndex ∉ xs → truncAtEos eosIndex xs = xs := by
  intro xs
  induction xs with
  | nil => intro _; rfl
  | cons a xs ih =>
    intro hmem
    have ha : a ≠ eosIndex := fun h => hmem (h ▸ List.mem_cons_self a xs)
    simp only [truncAtEos, if_neg ha]
    rw [ih (fun h => hmem (List.mem_cons_of_mem a h))]

/-! ## Greedy loop characterization (C1, greedy side) -/

lemma gstateAt_zero (M : ℕ → List ℕ → ℕ → ℚ) (V bosIndex eosIndex batchSize : ℕ) :
    gstateAt M V bosIndex eosIndex batchSize 0 =
      ⟨List.replicate batchSize [bosIndex], List.replicate batchSize 0,
       List.replicate batchSize 0, 0⟩ := by
  unfold gstateAt
  simp only [GState.mk.injEq]
  refine ⟨?_, ?_, trivial, trivial⟩
  · have h1 : (fun b => histAt M V bosIndex b 0) = Function.const ℕ [bosIndex] := rfl
    rw [h1, List.map_const, List.length_range]
  · have h1 : (fun b => eosCount M V bosIndex eosIndex b 0) = Function.const ℕ 0 := by
      funext b; rfl
    rw [h1, List.map_const, List.length_range]

lemma greedyStep_gstateAt (M : ℕ → List ℕ → ℕ → ℚ) (V bosIndex eosIndex batchSize t : ℕ) :
    greedyStep M eosIndex V false (gstateAt M V bosIndex eosIndex batchSize t) =
      gstateAt M V bosIndex eosIndex batchSize (t + 1) := by
  unfold greedyStep gstateAt
  simp only [List.length_map, List.length_range, Bool.false_eq_true, if_false]
  simp only [GState.mk.injEq]
  refine ⟨?_, ?_, trivial, trivial⟩
  · apply List.map_congr_left
    intro b hb
    have hg1 : (List.map (fun b => histAt M V bosIndex b t)
        (List.range batchSize)).getD b [] = histAt M V bosIndex b t :=
      getD_map_range_any _ (List.mem_range.mp hb) []
    simp only [hg1]
    rfl
  · apply List.map_congr_left
    intro b hb
    have hb' := List.mem_range.mp hb
    have hg1 : (List.map (fun b => histAt M V bosIndex b t)
        (List.range batchSize)).getD b [] = histAt M V bosIndex b t :=
      getD_map_range_any _ hb' []
    have hg2 : (List.map (fun b => eosCount M V bosIndex eosIndex b t)
        (List.range batchSize)).getD b 0 = eosCount M V bosIndex eosIndex b t :=
      getD_map_range_any _ hb' 0
    rw [eosCount_succ]
    simp only [hg1, hg2]
    rfl

lemma greedyLoop_gstateAt (M : ℕ → List ℕ → ℕ → ℚ) (V bosIndex eosIndex batchSize : ℕ) :
    ∀ (fuel t : ℕ), ∃ d, d ≤ fuel ∧ (1 ≤ fuel → 1 ≤ d) ∧
      greedyLoop M eosIndex V false batchSize fuel
          (gstateAt M V bosIndex eosIndex batchSize t) =
        gstateAt M V bosIndex eosIndex batchSize (t + d) ∧
      (d = fuel ∨
        batchSize ≤ (((gstateAt M V bosIndex eosIndex batchSize (t + d)).ends).filter
          fun e => decide (1 < e)).length) := by
  intro fuel
  induction fuel with
  | zero =>
    intro t
    exact ⟨0, le_refl 0, by omega, rfl, Or.inl rfl⟩
  | succ fuel ih =>
    intro t
    rw [greedyLoop]
    rw [greedyStep_gstateAt]
    by_cases hstop : batchSize ≤
        (((gstateAt M V bosIndex eosIndex batchSize (t + 1)).ends).filter
          fun e => decide (1 < e)).length
    · refine ⟨1, by omega, by omega, ?_, Or.inr hstop⟩
      simp only [if_pos hstop]
    · rcases ih (t + 1) with ⟨d, hd, hd1, hloop, hstopd⟩
      refine ⟨d + 1, by omega, by omega, ?_, ?_⟩
      · simp only [if_neg hstop]
        rw [hloop]
        congr 1
        omega
      · rcases hstopd with h | h
        · exact Or.inl (by omega)
        · exact Or.inr (by
            have : t + 1 + d = t + (d + 1) := by omega
            rwa [this] at h)

lemma greedy_stop_all_ge_two (M : ℕ → List ℕ → ℕ → ℚ)
    (V bosIndex eosIndex batchSize u : ℕ)
    (h : batchSize ≤ (((gstateAt M V bosIndex eosIndex batchSize u).ends).filter
      fun e => decide (1 < e)).length) :
    ∀ b, b < batchSize → 2 ≤ eosCount M V bosIndex eosIndex b u := by
  intro b hb
  set l := (List.range batchSize).map fun b => eosCount M V bosIndex eosIndex b u with hl
  have hlen : l.length = batchSize := by rw [hl, List.length_map, List.length_range]
  have heq : ((l.filter fun e => decide (1 < e)).length = l.length) := by
    have h1 : (l.filter fun e => decide (1 < e)).length ≤ l.length :=
      List.length_filter_le _ _
    have h2 : batchSize ≤ (l.filter fun e => decide (1 < e)).length := h
    omega
  have hall := List.filter_length_eq_length.mp heq
  have hmem : eosCount M V bosIndex eosIndex b u ∈ l := by
    rw [hl]
    exact List.mem_map.mpr ⟨b, List.mem_range.mpr hb, rfl⟩
  have := hall _ hmem
  simpa using this

/-- Witness for C4 at a concrete input. -/
theorem C4_witness :
    ((3 : ℕ) ≠ 1 ∧ (1 : ℕ) ≤ 1) ∧
      (beamSearch ⟨eosModel, 2, 4, 2, 3, 0, 1, false, fun _ => 1, 3, -1000⟩ 1).1 = none ∧
        1 ≤ (beamSearch ⟨eosModel, 2, 4, 2, 3, 0, 1, false, fun _ => 1, 3, -1000⟩ 1).2 :=
  ⟨⟨by decide, by decide⟩,
    C4_assert_after_loop ⟨eosModel, 2, 4, 2, 3, 0, 1, false, fun _ => 1, 3, -1000⟩ 1
      (by decide) (by decide)⟩

/-! ## Beam loop characterization for beam size 1 (C1, beam side) -/

lemma beamCand_K1 (P : BeamParams) (b : ℕ) (h : List ℕ) (sc : List ℚ)
    (hsize : P.size = 1) :
    beamCand P ⟨b, [h], sc⟩ =
      (List.range P.vocab).map fun v => P.M b h v + sc.getD 0 0 := by
  unfold beamCand
  rw [hsize, one_mul]
  apply List.map_congr_left
  intro f hf
  have hf' := List.mem_range.mp hf
  rw [Nat.div_eq_of_lt hf', Nat.mod_eq_of_lt hf']
  rfl

lemma beamSel_K1 (P : BeamParams) (t b : ℕ) (h : List ℕ) (sc : List ℚ)
    (hsize : P.size = 1) (halpha : P.alphaGt = false) (hV : 1 ≤ P.vocab) :
    beamSel P t ⟨b, [h], sc⟩ = [argmaxIdx (P.M b h) P.vocab] := by
  unfold beamSel
  have hcomp : beamComp P t ⟨b, [h], sc⟩ = beamCand P ⟨b, [h], sc⟩ := by
    simp [beamComp, halpha]
  rw [hcomp, beamCand_K1 P b h sc hsize, hsize,
    topkIdx_one_eq_argmax _ hV, argmaxIdx_shift]

lemma stepInst_K1 (P : BeamParams) (t b : ℕ) (h : List ℕ) (sc : List ℚ)
    (hsize : P.size = 1) (halpha : P.alphaGt = false) (hV : 1 ≤ P.vocab) :
    (stepInst P t ⟨b, [h], sc⟩).inst.rows =
        [h ++ [argmaxIdx (P.M b h) P.vocab]] ∧
      (stepInst P t ⟨b, [h], sc⟩).endCond =
        (decide (argmaxIdx (P.M b h) P.vocab = P.eosIndex) ||
          decide (t + 1 = P.maxOutputLength)) ∧
      (stepInst P t ⟨b, [h], sc⟩).finsRaw.any id =
        (stepInst P t ⟨b, [h], sc⟩).endCond ∧
      ((stepInst P t ⟨b, [h], sc⟩).endCond = false →
        (stepInst P t ⟨b, [h], sc⟩).entries = []) ∧
      ((stepInst P t ⟨b, [h], sc⟩).endCond = true → ∃ q : ℚ,
        (stepInst P t ⟨b, [h], sc⟩).entries =
          [(q, (h ++ [argmaxIdx (P.M b h) P.vocab]).drop 1)]) := by
  have hsel := beamSel_K1 P t b h sc hsize halpha hV
  have htok : argmaxIdx (P.M b h) P.vocab < P.vocab := argmaxIdx_lt _ hV
  have hrows : beamNewRows P t ⟨b, [h], sc⟩ =
      [h ++ [argmaxIdx (P.M b h) P.vocab]] := by
    unfold beamNewRows
    rw [hsel]
    simp [Nat.div_eq_of_lt htok, Nat.mod_eq_of_lt htok]
  have hfr : beamFinsRaw P t ⟨b, [h], sc⟩ =
      [(decide (argmaxIdx (P.M b h) P.vocab = P.eosIndex) ||
        decide (t + 1 = P.maxOutputLength))] := by
    unfold beamFinsRaw
    rw [hsel]
    simp [Nat.mod_eq_of_lt htok]
  have hec : (stepInst P t ⟨b, [h], sc⟩).endCond =
      (decide (argmaxIdx (P.M b h) P.vocab = P.eosIndex) ||
        decide (t + 1 = P.maxOutputLength)) := by
    show (beamFinsRaw P t ⟨b, [h], sc⟩).headD false = _
    rw [hfr]
    rfl
  refine ⟨?_, hec, ?_, ?_, ?_⟩
  · show beamNewRows P t ⟨b, [h], sc⟩ = _
    exact hrows
  · show (beamFinsRaw P t ⟨b, [h], sc⟩).any id = _
    rw [hfr, hec]
    simp
  · intro h0
    rw [hec] at h0
    show ((List.range (beamSel P t ⟨b, [h], sc⟩).length).filter fun j =>
        (if (beamFinsRaw P t ⟨b, [h], sc⟩).headD false then
            List.replicate (beamSel P t ⟨b, [h], sc⟩).length true
          else beamFinsRaw P t ⟨b, [h], sc⟩).getD j false).map _ = []
    rw [hsel, hfr, h0]
    simp
  · intro h1
    rw [hec] at h1
    refine ⟨(beamTopkScores P t ⟨b, [h], sc⟩).getD 0 0, ?_⟩
    show ((List.range (beamSel P t ⟨b, [h], sc⟩).length).filter fun j =>
        (if (beamFinsRaw P t ⟨b, [h], sc⟩).headD false then
            List.replicate (beamSel P t ⟨b, [h], sc⟩).length true
          else beamFinsRaw P t ⟨b, [h], sc⟩).getD j false).map
        (fun j => ((beamTopkScores P t ⟨b, [h], sc⟩).getD j 0,
          ((beamNewRows P t ⟨b, [h], sc⟩).getD j []).drop 1)) = _
    rw [hsel, hfr, h1]
    simp [hrows, List.range_succ]

lemma filter_map_comm {α β : Type} (l : List α) (f : α → β) (p : α → Bool)
    (q : β → Bool) (h : ∀ a ∈ l, p a = q (f a)) :
    (l.filter p).map f = (l.map f).filter q := by
  induction l with
  | nil => rfl
  | cons a l ih =>
    have hq : q (f a) = p a := (h a (List.mem_cons_self a l)).symm
    have ihl := ih fun x hx => h x (List.mem_cons_of_mem a hx)
    rcases hpa : p a with hv | hv
    · simp [List.filter_cons, List.map_cons, hq, hpa, ihl]
    · simp [List.filter_cons, List.map_cons, hq, hpa, ihl]

lemma find?_stepInst_none (P : BeamParams) (t : ℕ) (l : List BInst) (b : ℕ)
    (hb : b ∉ l.map BInst.orig) :
    (l.map (stepInst P t)).find? (fun p => p.inst.orig = b) = none := by
  rw [List.find?_eq_none]
  intro p hp
  rcases List.mem_map.mp hp with ⟨i, hi, hpi⟩
  subst hpi
  simp only [stepInst_orig, decide_eq_true_eq]
  intro he
  exact hb (List.mem_map.mpr ⟨i, hi, he⟩)

lemma beamStepFull_rpred (P : BeamParams) (t : ℕ) (s : BState) (b : ℕ) :
    ((beamStepFull P t s).1).rpred b =
      if ((((s.insts.map (stepInst P t)).find? fun p => p.inst.orig = b).map
            InstStep.endCond).getD false) = true then
        s.rpred b ++
          ((sortHyps (s.pools b ++
            (((s.insts.map (stepInst P t)).find? fun p => p.inst.orig = b).map
              InstStep.entries).getD [])).take P.nBest).map Prod.snd
      else s.rpred b := rfl

lemma beamStepFull_pools (P : BeamParams) (t : ℕ) (s : BState) (b : ℕ) :
    ((beamStepFull P t s).1).pools b =
      s.pools b ++ (((s.insts.map (stepInst P t)).find? fun p => p.inst.orig = b).map
        InstStep.entries).getD [] := rfl

lemma beamStepFull_insts (P : BeamParams) (t : ℕ) (s : BState) :
    ((beamStepFull P t s).1).insts =
      ((s.insts.map (stepInst P t)).filter fun p => !p.endCond).map InstStep.inst := rfl

lemma beamStepFull_inv (P : BeamParams) (batchSize : ℕ) (rt : ℕ → ℕ) (t : ℕ)
    (s : BState) (hsize : P.size = 1) (halpha : P.alphaGt = false)
    (hnb : P.nBest = 1) (hV : 1 ≤ P.vocab)
    (hrtfin : ∀ b, b < batchSize →
      tokAt P.M P.vocab P.bosIndex b (rt b) = P.eosIndex ∨ rt b + 1 = P.maxOutputLength)
    (hrtmin : ∀ b, b < batchSize → ∀ u, u < rt b →
      ¬(tokAt P.M P.vocab P.bosIndex b u = P.eosIndex ∨ u + 1 = P.maxOutputLength))
    (hinv : BeamInvK1 P batchSize rt t s) :
    BeamInvK1 P batchSize rt (t + 1) (beamStepFull P t s).1 := by
  obtain ⟨horig, hrows, hretired, hactive⟩ := hinv
  have hmemrange : ∀ i ∈ s.insts, i.orig < batchSize ∧ t ≤ rt i.orig := by
    intro i hi
    have hm : i.orig ∈ s.insts.map BInst.orig := List.mem_map.mpr ⟨i, hi, rfl⟩
    rw [horig] at hm
    rcases List.mem_filter.mp hm with ⟨h1, h2⟩
    exact ⟨List.mem_range.mp h1, by simpa using h2⟩
  have heta : ∀ i ∈ s.insts,
      i = ⟨i.orig, [histAt P.M P.vocab P.bosIndex i.orig t], i.scores⟩ := by
    intro i hi
    have hr := hrows i hi
    cases i
    simp_all
  have hendc : ∀ i ∈ s.insts, (stepInst P t i).endCond =
      (decide (tokAt P.M P.vocab P.bosIndex i.orig t = P.eosIndex) ||
        decide (t + 1 = P.maxOutputLength)) := by
    intro i hi
    conv_lhs => rw [heta i hi]
    exact (stepInst_K1 P t i.orig _ i.scores hsize halpha hV).2.1
  have hrows' : ∀ i ∈ s.insts, (stepInst P t i).inst.rows =
      [histAt P.M P.vocab P.bosIndex i.orig (t + 1)] := by
    intro i hi
    conv_lhs => rw [heta i hi]
    exact (stepInst_K1 P t i.orig _ i.scores hsize halpha hV).1
  have hentF : ∀ i ∈ s.insts, (stepInst P t i).endCond = false →
      (stepInst P t i).entries = [] := by
    intro i hi hf
    have hf' : (stepInst P t
        (⟨i.orig, [histAt P.M P.vocab P.bosIndex i.orig t], i.scores⟩ : BInst)).endCond
          = false := by rw [← heta i hi]; exact hf
    conv_lhs => rw [heta i hi]
    exact (stepInst_K1 P t i.orig _ i.scores hsize halpha hV).2.2.2.1 hf'
  have hentT : ∀ i ∈ s.insts, (stepInst P t i).endCond = true → ∃ q : ℚ,
      (stepInst P t i).entries =
        [(q, outAt P.M P.vocab P.bosIndex i.orig (t + 1))] := by
    intro i hi ht'
    have ht'' : (stepInst P t
        (⟨i.orig, [histAt P.M P.vocab P.bosIndex i.orig t], i.scores⟩ : BInst)).endCond
          = true := by rw [← heta i hi]; exact ht'
    rcases (stepInst_K1 P t i.orig _ i.scores hsize halpha hV).2.2.2.2 ht'' with ⟨q, hq⟩
    refine ⟨q, ?_⟩
    conv_lhs => rw [heta i hi]
    exact hq
  have hfinBiff : ∀ b, b < batchSize → t ≤ rt b →
      (((decide (tokAt P.M P.vocab P.bosIndex b t = P.eosIndex) ||
        decide (t + 1 = P.maxOutputLength)) = true) ↔ rt b = t) := by
    intro b hb hle
    constructor
    · intro hc
      simp only [Bool.or_eq_true, decide_eq_true_eq] at hc
      by_contra hne
      exact hrtmin b hb t (by omega) hc
    · intro heq
      have hf := hrtfin b hb
      rw [heq] at hf
      simp only [Bool.or_eq_true, decide_eq_true_eq]
      exact hf
  have hnodup : (s.insts.map BInst.orig).Nodup := by
    rw [horig]; exact (List.nodup_range batchSize).filter _
  refine ⟨?_, ?_, ?_, ?_⟩
  · -- active original positions after the step
    rw [beamStepFull_insts, List.filter_map, List.map_map, List.map_map]
    have hmc : ((s.insts.filter ((fun p => !p.endCond) ∘ stepInst P t)).map
        ((BInst.orig ∘ InstStep.inst) ∘ stepInst P t)) =
        ((s.insts.filter ((fun p => !p.endCond) ∘ stepInst P t)).map BInst.orig) :=
      List.map_congr_left fun i _ => stepInst_orig P t i
    rw [hmc, filter_map_comm s.insts BInst.orig _
      (fun b => !(decide (tokAt P.M P.vocab P.bosIndex b t = P.eosIndex) ||
        decide (t + 1 = P.maxOutputLength)))
      (fun i hi => by simp only [Function.comp]; rw [hendc i hi]),
      horig, List.filter_filter]
    apply List.filter_congr
    intro b hb
    have hblt := List.mem_range.mp hb
    by_cases hle : t ≤ rt b
    · by_cases heq : rt b = t
      · have hfb := (hfinBiff b hblt hle).mpr heq
        rw [hfb]
        have hfls : (t + 1 ≤ rt b) = False := eq_false (by omega)
        simp [hfls]
      · have hfb : (decide (tokAt P.M P.vocab P.bosIndex b t = P.eosIndex) ||
            decide (t + 1 = P.maxOutputLength)) = false := by
          rcases hb2 : (decide (tokAt P.M P.vocab P.bosIndex b t = P.eosIndex) ||
            decide (t + 1 = P.maxOutputLength)) with h2 | h2
          · rfl
          · exact absurd ((hfinBiff b hblt hle).mp hb2) heq
        rw [hfb]
        have h1 : (t + 1 ≤ rt b) = True := eq_true (by omega)
        have h2 : (t ≤ rt b) = True := eq_true hle
        simp [h1, h2]
    · have h1 : (t + 1 ≤ rt b) = False := eq_false (by omega)
      have h2 : (t ≤ rt b) = False := eq_false hle
      simp [h1, h2]
  · -- rows of the survivors
    intro i' hi'
    rw [beamStepFull_insts] at hi'
    rcases List.mem_map.mp hi' with ⟨p, hp, hpi⟩
    rcases List.mem_filter.mp hp with ⟨hpmem, _⟩
    rcases List.mem_map.mp hpmem with ⟨i, hi, hpi0⟩
    have : i'.rows = (stepInst P t i).inst.rows := by rw [hpi0, hpi]
    rw [this, hrows' i hi]
    have : i'.orig = i.orig := by rw [← hpi, ← hpi0]; rfl
    rw [this]
  · -- result sets of retired positions
    intro b hb hblt
    rcases Nat.lt_or_ge (rt b) t with hcase | hcase
    · -- retired before this step: untouched
      have hbnot : b ∉ s.insts.map BInst.orig := by
        rw [horig]
        intro hmem
        rcases List.mem_filter.mp hmem with ⟨_, h2⟩
        simp only [decide_eq_true_eq] at h2
        omega
      have hcond : ((((s.insts.map (stepInst P t)).find? fun p => p.inst.orig = b).map
          InstStep.endCond).getD false) = false := by
        rw [find?_stepInst_none P t s.insts b hbnot]
        rfl
      rw [beamStepFull_rpred, hcond, if_neg Bool.false_ne_true]
      exact hretired b hb hcase
    · -- retires exactly now: rt b = t
      have heq : rt b = t := by omega
      have hbm : b ∈ s.insts.map BInst.orig := by
        rw [horig]
        exact List.mem_filter.mpr ⟨List.mem_range.mpr hb, by simp [hcase]⟩
      rcases List.mem_map.mp hbm with ⟨i, hi, hio⟩
      have hfind : (s.insts.map (stepInst P t)).find?
          (fun p => p.inst.orig = b) = some (stepInst P t i) := by
        rw [← hio]
        exact find?_stepInst_eq P t s.insts i hi hnodup
      have hecT : (stepInst P t i).endCond = true := by
        rw [hendc i hi, hio]
        exact (hfinBiff b hb (by omega)).mpr heq
      rcases hentT i hi hecT with ⟨q, hq⟩
      have hcond : ((((s.insts.map (stepInst P t)).find? fun p => p.inst.orig = b).map
          InstStep.endCond).getD false) = true := by
        rw [hfind]; exact hecT
      have hent : ((((s.insts.map (stepInst P t)).find? fun p => p.inst.orig = b).map
          InstStep.entries).getD []) = (stepInst P t i).entries := by
        rw [hfind]
        rfl
      rw [beamStepFull_rpred, hcond, if_pos rfl, hent,
        (hactive b hb (by omega)).1, (hactive b hb (by omega)).2, hq, hio, heq]
      simp [sortHyps, hnb]
  · -- still-active positions keep empty results and pools
    intro b hb hge
    have hbm : b ∈ s.insts.map BInst.orig := by
      rw [horig]
      exact List.mem_filter.mpr ⟨List.mem_range.mpr hb, by simp; omega⟩
    rcases List.mem_map.mp hbm with ⟨i, hi, hio⟩
    have hfind : (s.insts.map (stepInst P t)).find?
        (fun p => p.inst.orig = b) = some (stepInst P t i) := by
      rw [← hio]
      exact find?_stepInst_eq P t s.insts i hi hnodup
    have hecF : (stepInst P t i).endCond = false := by
      rcases hc : (stepInst P t i).endCond with h2 | h2
      · rfl
      · exfalso
        have := (hfinBiff b hb (by omega)).mp (by rw [hendc i hi, hio] at hc; exact hc)
        omega
    have hcond : ((((s.insts.map (stepInst P t)).find? fun p => p.inst.orig = b).map
        InstStep.endCond).getD false) = false := by
      rw [hfind]; exact hecF
    have hent : ((((s.insts.map (stepInst P t)).find? fun p => p.inst.orig = b).map
        InstStep.entries).getD []) = (stepInst P t i).entries := by
      rw [hfind]
      rfl
    constructor
    · rw [beamStepFull_rpred, hcond, if_neg Bool.false_ne_true]
      exact (hactive b hb (by omega)).1
    · rw [beamStepFull_pools, hent, hentF i hi hecF, (hactive b hb (by omega)).2]
      rfl

lemma beamInit_inv (P : BeamParams) (batchSize : ℕ) (rt : ℕ → ℕ)
    (hsize : P.size = 1) :
    BeamInvK1 P batchSize rt 0 (beamInit P batchSize) := by
  refine ⟨?_, ?_, ?_, ?_⟩
  · show (((List.range batchSize).map fun b =>
        (⟨b, List.replicate P.size [P.bosIndex],
          0 :: List.replicate (P.size - 1) P.negInf⟩ : BInst)).map BInst.orig) = _
    rw [List.map_map]
    have h1 : (BInst.orig ∘ fun b => (⟨b, List.replicate P.size [P.bosIndex],
        0 :: List.replicate (P.size - 1) P.negInf⟩ : BInst)) = id := rfl
    rw [h1, List.map_id]
    symm
    rw [List.filter_eq_self]
    intro b _
    simp
  · intro i hi
    rcases List.mem_map.mp hi with ⟨b, _, hbi⟩
    subst hbi
    show List.replicate P.size [P.bosIndex] = _
    rw [hsize]
    rfl
  · intro b _ h0
    omega
  · intro b _ _
    exact ⟨rfl, rfl⟩

lemma beamLoopK1_final (P : BeamParams) (batchSize : ℕ) (rt : ℕ → ℕ)
    (hsize : P.size = 1) (halpha : P.alphaGt = false) (hnb : P.nBest = 1)
    (hV : 1 ≤ P.vocab)
    (hrtfin : ∀ b, b < batchSize →
      tokAt P.M P.vocab P.bosIndex b (rt b) = P.eosIndex ∨ rt b + 1 = P.maxOutputLength)
    (hrtmin : ∀ b, b < batchSize → ∀ u, u < rt b →
      ¬(tokAt P.M P.vocab P.bosIndex b u = P.eosIndex ∨ u + 1 = P.maxOutputLength))
    (hrtlt : ∀ b, b < batchSize → rt b < P.maxOutputLength) :
    ∀ (fuel t : ℕ) (s : BState) (q : ℕ), t + fuel = P.maxOutputLength →
      BeamInvK1 P batchSize rt t s →
      ∀ b, b < batchSize →
        ((beamLoop P t fuel s q).1).rpred b =
          [outAt P.M P.vocab P.bosIndex b (rt b + 1)] := by
  intro fuel
  induction fuel with
  | zero =>
    intro t s q ht hinv b hb
    exact hinv.2.2.1 b hb (by have := hrtlt b hb; omega)
  | succ fuel ih =>
    intro t s q ht hinv b hb
    have hinv' := beamStepFull_inv P batchSize rt t s hsize halpha hnb hV
      hrtfin hrtmin hinv
    rw [beamLoop]
    by_cases hbr : ((beamStepFull P t s).2 &&
        (beamStepFull P t s).1.insts.isEmpty) = true
    · rw [if_pos hbr]
      rcases Nat.lt_or_ge (rt b) (t + 1) with hlt | hge
      · exact hinv'.2.2.1 b hb hlt
      · exfalso
        have hempty : (beamStepFull P t s).1.insts = [] :=
          List.isEmpty_iff.mp (Bool.and_eq_true_iff.mp hbr).2
        have hbm : b ∈ (List.range batchSize).filter fun b2 =>
            decide (t + 1 ≤ rt b2) :=
          List.mem_filter.mpr ⟨List.mem_range.mpr hb, by simpa using hge⟩
        rw [← hinv'.1, hempty] at hbm
        simp at hbm
    · rw [if_neg hbr]
      exact ih (t + 1) (beamStepFull P t s).1 (q + 1) (by omega) hinv' b hb

lemma beamSearch_nbest1 (P : BeamParams) (batchSize : ℕ) (h1 : P.nBest = 1) :
    (beamSearch P batchSize).1 =
      some (padAndStackHyps ((List.range batchSize).map fun b =>
        (((beamLoop P 0 P.maxOutputLength (beamInit P batchSize) 0).1).rpred b).headD [])
        P.padIndex) := by
  unfold beamSearch
  rw [if_pos h1]

/-- C1 amended: beam search with `size = 1`, `n_best = 1` and the length
penalty disabled (`alpha <= -1`, modelled by `alphaGt = false`, any
penalty function) returns, for every deterministic scoring model and
every instance, precisely the greedy output row truncated at (and
including) its first EOS (the whole greedy row when greedy produces no
EOS within `max_output_length` steps), padded and stacked with
`pad_index`.  Token-for-token identity with the raw greedy output fails
because greedy keeps decoding past the first EOS (see the
counterexample), so truncation is exactly the correction needed. -/
theorem C1_beam_size1_equals_truncated_greedy
    (M : ℕ → List ℕ → ℕ → ℚ)
    (V bosIndex eosIndex padIndex maxOutputLength batchSize : ℕ)
    (pen : ℕ → ℚ) (negInf : ℚ)
    (hlen : 1 ≤ maxOutputLength) (hV : 1 ≤ V) :
    (beamSearch ⟨M, 1, V, bosIndex, eosIndex, padIndex, maxOutputLength,
        false, pen, 1, negInf⟩ batchSize).1 =
      some (padAndStackHyps
        (((greedy M bosIndex eosIndex V maxOutputLength batchSize false).1).map
          (truncAtEos eosIndex)) padIndex) := by
  set P : BeamParams := ⟨M, 1, V, bosIndex, eosIndex, padIndex, maxOutputLength,
    false, pen, 1, negInf⟩ with hP
  have hex : ∀ b : ℕ, ∃ u, tokAt M V bosIndex b u = eosIndex ∨
      u + 1 = maxOutputLength :=
    fun _ => ⟨maxOutputLength - 1, Or.inr (by omega)⟩
  set rt : ℕ → ℕ := fun b => Nat.find (hex b) with hrtdef
  have hrtfin : ∀ b, b < batchSize →
      tokAt M V bosIndex b (rt b) = eosIndex ∨ rt b + 1 = maxOutputLength :=
    fun b _ => Nat.find_spec (hex b)
  have hrtmin : ∀ b, b < batchSize → ∀ u, u < rt b →
      ¬(tokAt M V bosIndex b u = eosIndex ∨ u + 1 = maxOutputLength) :=
    fun b _ u hu => Nat.find_min (hex b) hu
  have hrtlt : ∀ b, b < batchSize → rt b < maxOutputLength := by
    intro b _
    have h1 : rt b ≤ maxOutputLength - 1 :=
      Nat.find_min' (hex b) (Or.inr (by omega))
    omega
  have hinv0 : BeamInvK1 P batchSize rt 0 (beamInit P batchSize) :=
    beamInit_inv P batchSize rt rfl
  have hfinal := beamLoopK1_final P batchSize rt rfl rfl rfl hV hrtfin hrtmin hrtlt
    maxOutputLength 0 (beamInit P batchSize) 0 (by rw [Nat.zero_add]) hinv0
  rcases greedyLoop_gstateAt M V bosIndex eosIndex batchSize maxOutputLength 0 with
    ⟨d, hdle, hd1, hloop, hstop⟩
  have hgreedy : (greedy M bosIndex eosIndex V maxOutputLength batchSize false).1 =
      (List.range batchSize).map fun b => outAt M V bosIndex b d := by
    show ((greedyFinal M bosIndex eosIndex V maxOutputLength batchSize
        false).hists.map (List.drop 1)) = _
    unfold greedyFinal
    rw [← gstateAt_zero M V bosIndex eosIndex batchSize, hloop]
    show ((List.range batchSize).map fun b =>
        histAt M V bosIndex b (0 + d)).map (List.drop 1) = _
    rw [List.map_map]
    apply List.map_congr_left
    intro b _
    show (histAt M V bosIndex b (0 + d)).drop 1 = outAt M V bosIndex b d
    rw [Nat.zero_add]
    rfl
  have hpoint : ∀ b, b < batchSize →
      truncAtEos eosIndex (outAt M V bosIndex b d) =
        outAt M V bosIndex b (rt b + 1) := by
    intro b hb
    by_cases heos : tokAt M V bosIndex b (rt b) = eosIndex
    · have hfirst : ∀ i, i < rt b → tokAt M V bosIndex b i ≠ eosIndex :=
        fun i hi hc => hrtmin b hb i hi (Or.inl hc)
      have hlt : rt b < d := by
        rcases hstop with hdm | hstopc
        · rw [hdm]; exact hrtlt b hb
        · have h2 := greedy_stop_all_ge_two M V bosIndex eosIndex batchSize
            (0 + d) hstopc b hb
          rcases eosCount_exists_eos M V bosIndex eosIndex b (0 + d)
            (by omega) with ⟨i, hid, hieq⟩
          have h3 : rt b ≤ i := Nat.find_min' (hex b) (Or.inl hieq)
          omega
      rcases outAt_decomp M V bosIndex b d (rt b) hlt with ⟨ys, hys⟩
      have hnotmem : eosIndex ∉ outAt M V bosIndex b (rt b) := by
        intro hmem
        rcases mem_outAt M V bosIndex b (rt b) _ hmem with ⟨i, hi, hieq⟩
        exact hfirst i hi hieq.symm
      rw [hys, outAt_succ, heos, List.append_assoc]
      show truncAtEos eosIndex
          (outAt M V bosIndex b (rt b) ++ (eosIndex :: ys)) =
        outAt M V bosIndex b (rt b) ++ [eosIndex]
      exact truncAtEos_append_eos eosIndex ys _ hnotmem
    · have hforced : rt b + 1 = maxOutputLength := by
        rcases hrtfin b hb with h | h
        · exact absurd h heos
        · exact h
      have hnoeos : ∀ i, i < maxOutputLength → tokAt M V bosIndex b i ≠ eosIndex := by
        intro i hi hc
        rcases Nat.lt_trichotomy i (rt b) with h | h | h
        · exact hrtmin b hb i h (Or.inl hc)
        · exact heos (h ▸ hc)
        · omega
      have hdm : d = maxOutputLength := by
        rcases hstop with h | hstopc
        · exact h
        · exfalso
          have h2 := greedy_stop_all_ge_two M V bosIndex eosIndex batchSize
            (0 + d) hstopc b hb
          rcases eosCount_exists_eos M V bosIndex eosIndex b (0 + d)
            (by omega) with ⟨i, hid, hieq⟩
          exact hnoeos i (by omega) hieq
      have hnm : eosIndex ∉ outAt M V bosIndex b d := by
        intro hmem
        rcases mem_outAt M V bosIndex b d _ hmem with ⟨i, hi, hieq⟩
        exact hnoeos i (by omega) hieq.symm
      rw [truncAtEos_of_not_mem eosIndex _ hnm, hdm, hforced]
  have hlists : ((List.range batchSize).map fun b =>
      (((beamLoop P 0 P.maxOutputLength (beamInit P batchSize) 0).1).rpred b).headD []) =
      ((List.range batchSize).map fun b =>
        truncAtEos eosIndex (outAt M V bosIndex b d)) := by
    apply List.map_congr_left
    intro b hb
    have hb' := List.mem_range.mp hb
    rw [hfinal b hb', hpoint b hb']
    rfl
  rw [beamSearch_nbest1 P batchSize rfl, hlists, hgreedy, List.map_map]
  rfl

/-- C1 counterexample: for the always-EOS model on a batch of one
instance with `max_output_length = 2`, beam search with `size = 1`,
`n_best = 1`, length penalty disabled returns `[[3]]` while greedy
returns `[[3, 3]]` — not identical token-for-token, because greedy keeps
decoding past the first EOS and records the extra tokens. -/
theorem C1_counterexample :
    (beamSearch ⟨eosModel, 1, 4, 2, 3, 0, 2, false, fun _ => 1, 1, -1000⟩ 1).1 ≠
        some ((greedy eosModel 2 3 4 2 1 false).1) ∧
      (beamSearch ⟨eosModel, 1, 4, 2, 3, 0, 2, false, fun _ => 1, 1, -1000⟩ 1).1 =
        some [[3]] ∧
      (greedy eosModel 2 3 4 2 1 false).1 = [[3, 3]] := by
  refine ⟨?_, ?_, ?_⟩ <;> with_unfolding_all decide

/-- Witness for C1's amended theorem at a concrete input. -/
theorem C1_witness :
    ((1 : ℕ) ≤ 2 ∧ (1 : ℕ) ≤ 4) ∧
      (beamSearch ⟨eosModel, 1, 4, 2, 3, 0, 2, false, fun _ => 1, 1, -1000⟩ 1).1 =
        some (padAndStackHyps
          (((greedy eosModel 2 3 4 2 1 false).1).map (truncAtEos 3)) 0) :=
  ⟨⟨by decide, by decide⟩,
    C1_beam_size1_equals_truncated_greedy eosModel 4 2 3 0 2 1 (fun _ => 1) (-1000)
      (by decide) (by decide)⟩

end JoeyNMT
